import Mathlib

/-!
Verification development for the aggregation/post-processing core of the
financial_risk_analyzer repository (src/agents.py).

The embedded functions are `postprocess_supervisor_output`, `truncate_summary`
and `extract_summary_and_score`.  Texts are modelled as `List Char`; Python
floats are modelled as exact rationals (`ℚ`); Python's `round(x, 2)` is
modelled as exact round-half-to-even on rationals.  The model covers the ASCII
fragment of Python's text handling: the whitespace class (for `\s`, `str.strip`)
is the six ASCII whitespace characters and the `str.splitlines` boundaries are
the four ASCII line-boundary characters; `float()` is modelled on finite
decimal literals (optional sign, digits, decimal point, exponent), treating
`inf`/`nan`/underscore forms as unparsable.  The `fallback_scores=None` default
of the source is not modelled: every claim supplies a total fallback mapping,
so the mapping is a total function and the `else 0.0` branches of the source
are out of scope.  Serialization via `json.dumps` is not modelled; the output
is the structured record itself.
-/

namespace FRA

/-- Python whitespace (`\s`, `str.strip`), ASCII fragment. -/
def pyIsSpace (c : Char) : Bool :=
  c = ' ' || c = '\t' || c = '\n' || c = '\r' || c = '\x0b' || c = '\x0c'

/-- Python `str.strip()` over the modelled whitespace set. -/
def pstrip (l : List Char) : List Char :=
  ((l.dropWhile pyIsSpace).reverse.dropWhile pyIsSpace).reverse

/-- Line-boundary characters of Python `str.splitlines`, ASCII fragment. -/
def isLB (c : Char) : Bool :=
  c = '\n' || c = '\r' || c = '\x0b' || c = '\x0c'

/-- Python `str.splitlines()` over the modelled boundary set: splits at each
boundary, treats `\r\n` as one boundary, and drops a trailing empty line. -/
def pSplitlines : List Char → List (List Char)
  | [] => []
  | '\r' :: '\n' :: r => [] :: pSplitlines r
  | c :: cs =>
    if isLB c then [] :: pSplitlines cs
    else
      match pSplitlines cs with
      | [] => [[c]]
      | line :: rest => (c :: line) :: rest

/-- Value of a run of decimal digit characters, as in Python `int`/`float`. -/
def digitsVal (l : List Char) : ℕ :=
  l.foldl (fun a c => 10 * a + (c.toNat - 48)) 0

/-- Magnitude of an exponent: a non-empty digit run consuming the whole rest,
scaled by the sign. -/
def expMag? (r2 : List Char) (sgn : ℤ) : Option ℚ :=
  let ds := r2.takeWhile Char.isDigit
  if ds.isEmpty || !(r2.drop ds.length).isEmpty then none
  else some ((10 : ℚ) ^ (sgn * (digitsVal ds : ℤ)))

/-- Exponent digits with optional sign, after `e`/`E`. -/
def expDigits? : List Char → Option ℚ
  | [] => none
  | s :: t =>
    if s = '+' then expMag? t 1
    else if s = '-' then expMag? t (-1)
    else expMag? (s :: t) 1

/-- Exponent part of a Python float literal: either nothing, or
`e`/`E`, optional sign, one or more digits consuming the whole rest. -/
def expPart? : List Char → Option ℚ
  | [] => some 1
  | c :: r => if c = 'e' || c = 'E' then expDigits? r else none

/-- Unsigned part of Python `float()` on an already-stripped string:
digits, optional fraction, optional exponent (finite decimal literals only). -/
def parseUnsigned? (s : List Char) : Option ℚ :=
  let ip := s.takeWhile Char.isDigit
  match s.drop ip.length with
  | [] => if ip.isEmpty then none else some (digitsVal ip)
  | c1 :: r2 =>
    if c1 = '.' then
      let fp := r2.takeWhile Char.isDigit
      let r3 := r2.drop fp.length
      if ip.isEmpty && fp.isEmpty then none
      else (expPart? r3).map
        (fun e => ((digitsVal ip : ℚ) + (digitsVal fp : ℚ) / 10 ^ fp.length) * e)
    else if c1 = 'e' || c1 = 'E' then
      if ip.isEmpty then none
      else (expPart? (c1 :: r2)).map ((digitsVal ip : ℚ) * ·)
    else none

/-- Python `float()` on an already-stripped string (finite decimal literals):
an optional sign followed by the unsigned part. -/
def pyFloat? : List Char → Option ℚ
  | [] => none
  | c :: r =>
    if c = '+' then parseUnsigned? r
    else if c = '-' then (parseUnsigned? r).map Neg.neg
    else parseUnsigned? (c :: r)

/-- Round half to even (banker's rounding) on an exact rational. -/
def rhe (q : ℚ) : ℤ :=
  let f := ⌊q⌋
  if q - f < 1 / 2 then f
  else if q - f > 1 / 2 then f + 1
  else if f % 2 = 0 then f else f + 1

/-- Python `round(x, 2)` modelled exactly on rationals. -/
def round2 (q : ℚ) : ℚ := (rhe (q * 100) : ℚ) / 100

/-- The per-category record appended to `output["risks"]` in
`postprocess_supervisor_output` (src/agents.py). -/
structure CategoryResult where
  name : List Char
  summary : List Char
  impact_score : ℚ
deriving DecidableEq

/-- The record built by `postprocess_supervisor_output` (src/agents.py):
`{"risks": [...], "final_risk_score": ...}`. -/
structure AggregateResult where
  risks : List CategoryResult
  final_risk_score : ℚ
deriving DecidableEq

/-- The `fallback_scores` mapping, assumed total (one entry per category),
accessed only through its `impact_score` field in the source. -/
abbrev Fallback := List Char → CategoryResult

/-- The `risk_names` list of `postprocess_supervisor_output` (src/agents.py). -/
def risk_names : List (List Char) :=
  [("Market Risk").data, ("Credit Risk").data, ("Liquidity Risk").data,
   ("Operational Risk").data, ("Regulatory/Compliance Risk").data]

/-- `truncate_summary` (src/agents.py lines 235-243): truncate to `max_chars`,
ending at the last `.` of the prefix when one exists. -/
def truncate_summary (text : List Char) (max_chars : ℕ := 350) : List Char :=
  if text.length ≤ max_chars then text
  else
    let truncated := text.take max_chars
    if truncated.contains '.' then
      (truncated.reverse.dropWhile (fun c => c != '.')).reverse
    else truncated

/-- Head of the table regex `\|\s*Risk Name` at the current position:
a `|`, greedy whitespace, then the literal `Risk Name`; returns the rest. -/
def matchHeader? (l : List Char) : Option (List Char) :=
  match l with
  | '|' :: r =>
    let r2 := r.dropWhile pyIsSpace
    if ("Risk Name").data.isPrefixOf r2 then some (r2.drop 9) else none
  | _ => none

/-- After the header, the lazy `.*?\n` of the table regex: find the first
newline directly followed by `|` such that a later newline exists (so that
`(?:\|.*\n)+` can match); returns the text after that `|`. -/
def findGroupStart : List Char → Option (List Char)
  | [] => none
  | c :: r =>
    if c = '\n' then
      match r with
      | '|' :: r2 => if r2.contains '\n' then some r2 else findGroupStart r
      | _ => findGroupStart r
    else findGroupStart r

/-- Prefix of a list up to and including its last `\n`. -/
def takeThroughLastNL (l : List Char) : List Char :=
  (l.reverse.dropWhile (fun c => c != '\n')).reverse

/-- `re.search(r"\|\s*Risk Name.*?\n((?:\|.*\n)+)", text, re.DOTALL)` of
src/agents.py line 196: leftmost match; under DOTALL the greedy inner `.*`
makes group 1 run from the first `|`-line after the header through the last
newline of the text. Returns group 1. -/
def tableGroup? : List Char → Option (List Char)
  | [] => none
  | l@(_ :: cs) =>
    match matchHeader? l with
    | some r =>
      match findGroupStart r with
      | some r2 => some ('|' :: takeThroughLastNL r2)
      | none => tableGroup? cs
    | none => tableGroup? cs

/-- `[c.strip() for c in row.strip().split('|') if c.strip()]`
(src/agents.py line 204). -/
def parseCells (row : List Char) : List (List Char) :=
  ((pstrip row).splitOn '|').filterMap
    (fun c => let s := pstrip c; if s.isEmpty then none else some s)

/-- The `try: score = float(cols[1]) except: score = fallback_scores[...]`
block of src/agents.py lines 206-209: the parsed score cell, or on parse
failure the fallback score of the category at the row's position. -/
def rowScore (fb : Fallback) (row : List Char) (idx : ℕ) : ℚ :=
  match pyFloat? ((parseCells row).getD 1 []) with
  | some v => v
  | none => (fb (risk_names.getD idx [])).impact_score

/-- The row loop of src/agents.py lines 203-215 over the captured table rows:
rows with exactly 2 non-empty cells and index below 5 yield `(idx, score)`,
the score being the parsed cell or the positional fallback. -/
def processRows (fb : Fallback) : List (List Char) → ℕ → List (ℕ × ℚ)
  | [], _ => []
  | row :: rest, idx =>
    if (parseCells row).length = 2 ∧ idx < 5 then
      (idx, rowScore fb row idx) :: processRows fb rest (idx + 1)
    else processRows fb rest (idx + 1)

/-- `re.findall(r"\d+\.\s*(.*)", text)` (src/agents.py line 227), fuelled
scanner: at each position, a maximal digit run followed by `.`, greedy
whitespace (newlines included), then a capture running to end of line;
scanning resumes after the capture. Fuel is the text length, which bounds
the number of steps since every step consumes at least one character. -/
def findSummariesAux : ℕ → List Char → List (List Char)
  | 0, _ => []
  | _ + 1, [] => []
  | fuel + 1, l@(c :: cs) =>
    if c.isDigit then
      let run := l.takeWhile Char.isDigit
      match l.drop run.length with
      | '.' :: r =>
        let r2 := r.dropWhile pyIsSpace
        let cap := r2.takeWhile (fun d => d != '\n')
        cap :: findSummariesAux fuel (r2.drop cap.length)
      | _ => findSummariesAux fuel cs
    else findSummariesAux fuel cs

/-- All captures of `re.findall(r"\d+\.\s*(.*)", text)`. -/
def findSummaries (l : List Char) : List (List Char) :=
  findSummariesAux l.length l

/-- The resolved `(index, raw score)` pairs: positions of `table_scores` set by
src/agents.py lines 200-225, in order, with their pre-rounding values. The
`output["risks"]` entries and the non-`None` entries of `table_scores`
correspond to these pairs one to one, in the same order. -/
def resolvedPairs (text : List Char) (fb : Fallback) : List (ℕ × ℚ) :=
  match tableGroup? text with
  | some g => processRows fb (pSplitlines (pstrip g)) 0
  | none => (List.range 5).map (fun i => (i, (fb (risk_names.getD i [])).impact_score))

/-- The `output["risks"]` entries built at src/agents.py lines 211-225,
before summary assignment. -/
def buildRisks (pairs : List (ℕ × ℚ)) : List CategoryResult :=
  pairs.map (fun p => ⟨risk_names.getD p.1 [], [], round2 p.2⟩)

/-- The summary-assignment loop of src/agents.py lines 228-231: the i-th
capture becomes the truncated summary of the i-th risk entry. -/
def applySummaries : List CategoryResult → List (List Char) → List CategoryResult
  | rs, [] => rs
  | [], _ => []
  | r :: rs, s :: ss => { r with summary := truncate_summary s } :: applySummaries rs ss

/-- `any(table_scores)` (src/agents.py line 232): Python truthiness, where
`None` and `0.0` are falsy. -/
def anyTruthy (pairs : List (ℕ × ℚ)) : Bool :=
  pairs.any (fun p => p.2 != 0)

/-- `postprocess_supervisor_output` (src/agents.py lines 191-233) for a total
fallback mapping. The unused `state` parameter is dropped. -/
def postprocess_supervisor_output (text : List Char) (fb : Fallback) : AggregateResult :=
  let pairs := resolvedPairs text fb
  let risks := applySummaries (buildRisks pairs) (findSummaries text)
  let final : ℚ :=
    if anyTruthy pairs then
      round2 ((pairs.map (fun p => p.2)).sum / (pairs.length : ℚ))
    else 0
  ⟨risks, final⟩

/-- Exception-aware variant of `postprocess_supervisor_output`: `none` marks
the one place a `ZeroDivisionError` could arise (dividing by the number of
set scores at src/agents.py line 232). -/
def postprocessE (text : List Char) (fb : Fallback) : Option AggregateResult :=
  let pairs := resolvedPairs text fb
  let risks := applySummaries (buildRisks pairs) (findSummaries text)
  if anyTruthy pairs then
    if pairs.length = 0 then none
    else some ⟨risks, round2 ((pairs.map (fun p => p.2)).sum / (pairs.length : ℚ))⟩
  else some ⟨risks, 0⟩

/-- `re.search(r"Summary:\s*(.*)", text)` (src/agents.py line 286): leftmost
occurrence of the literal marker, greedy whitespace (newlines included),
then a capture running to end of line. -/
def findSummaryCapture : List Char → Option (List Char)
  | [] => none
  | l@(_ :: cs) =>
    if ("Summary:").data.isPrefixOf l then
      let r2 := (l.drop 8).dropWhile pyIsSpace
      some (r2.takeWhile (fun d => d != '\n'))
    else findSummaryCapture cs

/-- `re.search(r"Impact Score:\s*([01](?:\.\d+)?)", text)` (src/agents.py
line 287): scan for the literal marker followed, after greedy whitespace, by
`0` or `1` and an optional fraction; on a failed tail the scan resumes at the
next position, as `re.search` does. -/
def findScoreCapture : List Char → Option (List Char)
  | [] => none
  | l@(_ :: cs) =>
    if ("Impact Score:").data.isPrefixOf l then
      match (l.drop 13).dropWhile pyIsSpace with
      | c :: r2 =>
        if c = '0' || c = '1' then
          match r2 with
          | '.' :: r3 =>
            let ds := r3.takeWhile Char.isDigit
            if ds.isEmpty then some [c] else some (c :: '.' :: ds)
          | _ => some [c]
        else findScoreCapture cs
      | [] => findScoreCapture cs
    else findScoreCapture cs

/-- `extract_summary_and_score` (src/agents.py lines 285-293). The
`except` branch around `float` maps to the `none` arm of the parse. -/
def extract_summary_and_score (report : List Char) : List Char × ℚ :=
  let summary :=
    match findSummaryCapture report with
    | some cap => pstrip cap
    | none => pstrip report
  let score : ℚ :=
    match findScoreCapture report with
    | some cap =>
      match pyFloat? cap with
      | some v => v
      | none => 0
    | none => 0
  (summary, score)

end FRA

namespace FRA

/-! ### Helper lemmas -/

theorem applySummaries_length (rs : List CategoryResult) (ss : List (List Char)) :
    (applySummaries rs ss).length = rs.length := by
  induction rs generalizing ss with
  | nil => cases ss <;> simp [applySummaries]
  | cons r rs ih => cases ss <;> simp [applySummaries, ih]

theorem applySummaries_map_name (rs : List CategoryResult) (ss : List (List Char)) :
    (applySummaries rs ss).map (fun r => r.name) = rs.map (fun r => r.name) := by
  induction rs generalizing ss with
  | nil => cases ss <;> simp [applySummaries]
  | cons r rs ih => cases ss <;> simp [applySummaries, ih]

theorem applySummaries_map_impact (rs : List CategoryResult) (ss : List (List Char)) :
    (applySummaries rs ss).map (fun r => r.impact_score) = rs.map (fun r => r.impact_score) := by
  induction rs generalizing ss with
  | nil => cases ss <;> simp [applySummaries]
  | cons r rs ih => cases ss <;> simp [applySummaries, ih]

theorem processRows_length_le (fb : Fallback) (rows : List (List Char)) (idx : ℕ) :
    (processRows fb rows idx).length ≤ 5 - idx := by
  induction rows generalizing idx with
  | nil => simp [processRows]
  | cons row rest ih =>
    rw [processRows]
    split
    · next h => have := ih (idx + 1); simp only [List.length_cons]; omega
    · have := ih (idx + 1); omega

theorem processRows_eq_nil_of_ge (fb : Fallback) (rows : List (List Char)) (idx : ℕ)
    (h : 5 ≤ idx) : processRows fb rows idx = [] := by
  induction rows generalizing idx with
  | nil => simp [processRows]
  | cons row rest ih =>
    rw [processRows]
    split
    · next hg => omega
    · exact ih (idx + 1) (by omega)

theorem processRows_fst_lt (fb : Fallback) (rows : List (List Char)) (idx : ℕ)
    (p : ℕ × ℚ) (hp : p ∈ processRows fb rows idx) : p.1 < 5 := by
  induction rows generalizing idx with
  | nil => simp [processRows] at hp
  | cons row rest ih =>
    rw [processRows] at hp
    split at hp
    · next hg =>
      rcases List.mem_cons.mp hp with h | h
      · subst h; exact hg.2
      · exact ih (idx + 1) h
    · exact ih (idx + 1) hp

theorem processRows_not_mem (fb : Fallback) (rows : List (List Char)) (idx i : ℕ)
    (hmal : ∀ j row, idx + j = i → rows.get? j = some row → (parseCells row).length ≠ 2) :
    ∀ p ∈ processRows fb rows idx, p.1 ≠ i := by
  induction rows generalizing idx with
  | nil => simp [processRows]
  | cons row rest ih =>
    intro p hp
    rw [processRows] at hp
    split at hp
    · next hg =>
      rcases List.mem_cons.mp hp with h | h
      · subst h
        intro hEq
        exact hmal 0 row (by omega) (by simp) hg.1
      · exact ih (idx + 1) (fun j r hj hr => hmal (j + 1) r (by omega) (by simpa using hr)) p h
    · exact ih (idx + 1) (fun j r hj hr => hmal (j + 1) r (by omega) (by simpa using hr)) p hp

theorem anyTruthy_ne_nil (pairs : List (ℕ × ℚ)) (h : anyTruthy pairs = true) :
    pairs.length ≠ 0 := by
  rcases List.any_eq_true.mp h with ⟨p, hp, _⟩
  have := List.length_pos.mpr (List.ne_nil_of_mem hp)
  omega

theorem isDigit_sub_le (c : Char) (h : c.isDigit = true) : c.toNat - 48 ≤ 9 := by
  unfold Char.isDigit at h
  simp only [Bool.and_eq_true, decide_eq_true_eq] at h
  obtain ⟨h1, h2⟩ := h
  rw [UInt32.le_def] at h2
  have h3 : c.val.toNat ≤ (57 : UInt32).toNat := by exact_mod_cast h2
  have : c.toNat ≤ 57 := h3
  omega

theorem digitsVal_foldl_lt (l : List Char) (hd : ∀ c ∈ l, c.isDigit = true) :
    ∀ a : ℕ, l.foldl (fun a c => 10 * a + (c.toNat - 48)) a < (a + 1) * 10 ^ l.length := by
  induction l with
  | nil => intro a; simp
  | cons c t ih =>
    intro a
    have hc : c.toNat - 48 ≤ 9 := isDigit_sub_le c (hd c (by simp))
    have ht := ih (fun d hdm => hd d (by simp [hdm])) (10 * a + (c.toNat - 48))
    have hmono : (10 * a + (c.toNat - 48) + 1) * 10 ^ t.length ≤ (a + 1) * 10 ^ (t.length + 1) := by
      have : 10 * a + (c.toNat - 48) + 1 ≤ (a + 1) * 10 := by omega
      calc (10 * a + (c.toNat - 48) + 1) * 10 ^ t.length
          ≤ (a + 1) * 10 * 10 ^ t.length := Nat.mul_le_mul_right _ this
        _ = (a + 1) * 10 ^ (t.length + 1) := by ring
    simp only [List.foldl_cons, List.length_cons]
    exact lt_of_lt_of_le ht hmono

theorem digitsVal_lt (l : List Char) (hd : ∀ c ∈ l, c.isDigit = true) :
    digitsVal l < 10 ^ l.length := by
  have := digitsVal_foldl_lt l hd 0
  simpa [digitsVal] using this

end FRA

namespace FRA

/-! ### Concrete inputs used by evaluations, counterexamples and witnesses -/

/-- The synthesis text of claim C1: well-formed markdown table (header,
separator row, five data rows with scores 0.8, 0.6, 0.4, 0.9, 0.5) and no
numbered list. -/
def c1Text : List Char :=
  ("| Risk Name | Impact Score |\n|---|---|\n| Market Risk | 0.8 |\n| Credit Risk | 0.6 |\n| Liquidity Risk | 0.4 |\n| Operational Risk | 0.9 |\n| Regulatory/Compliance Risk | 0.5 |\n").data

/-- A total fallback mapping assigning every category impact score 0.3. -/
def cfb : Fallback := fun n => ⟨n, ("x").data, 3 / 10⟩

/-- A text containing no markdown table and no numbered list. -/
def noTableText : List Char := ("no table here").data

end FRA

namespace FRA

attribute [local semireducible] Rat.add Rat.mul Rat.inv Rat.sub

set_option maxRecDepth 10000

/-! ### Claim theorems -/

/-- C1: evaluation of the aggregator at the claim's own scenario (a table with
header, separator row and five data rows scoring 0.8, 0.6, 0.4, 0.9, 0.5, no
numbered list, fallback 0.3 everywhere).  The separator row is captured as data
row 0: it has exactly two non-empty cells (`---`, `---`), its score cell fails
to parse, so category 0 (Market) receives the fallback 0.3; the five table
scores shift down one position, the fifth (0.5) is dropped, the summaries are
scraped from the decimal scores (`8 |`, ...), and the final score is
round((0.3+0.8+0.6+0.4+0.9)/5, 2) = 0.6, not 0.64. -/
theorem c1_failing_eval :
    postprocess_supervisor_output c1Text cfb =
      ⟨[⟨("Market Risk").data, ("8 |").data, 3 / 10⟩,
        ⟨("Credit Risk").data, ("6 |").data, 4 / 5⟩,
        ⟨("Liquidity Risk").data, ("4 |").data, 3 / 5⟩,
        ⟨("Operational Risk").data, ("9 |").data, 2 / 5⟩,
        ⟨("Regulatory/Compliance Risk").data, ("5 |").data, 9 / 10⟩], 3 / 5⟩ ∧
    (postprocess_supervisor_output c1Text cfb).final_risk_score ≠ 16 / 25 ∧
    (postprocess_supervisor_output c1Text cfb).risks.all
      (fun r => r.summary.isEmpty) = false := by decide

/-- C2: counterexample.  For a synthesis text whose table has a single
malformed data row (three cells), the returned `risks` sequence is empty, not
of length 5. -/
def c2Text : List Char := ("| Risk Name |\n| a | b | c |\n").data

/-- C2: counterexample theorem: `risks` has length 0, refuting the claimed
invariant that it always has length exactly 5. -/
theorem c2_counterexample :
    (postprocess_supervisor_output c2Text cfb).risks.length = 0 ∧
    ¬ (postprocess_supervisor_output c2Text cfb).risks.length = 5 := by decide

/-- C3: counterexample input: a table (no separator row) whose data row at
position 1 has three cells. -/
def c3Text : List Char :=
  ("| Risk Name |\n| Market Risk | 0.8 |\n| Credit | x | y |\n| Liquidity Risk | 0.4 |\n").data

/-- C3: counterexample theorem: when the data row at position 1 is malformed,
the output contains no entry for category 1 (Credit Risk) at all — in
particular no entry carrying the fallback score for that category — refuting
the claim that the category is kept with its fallback score. -/
theorem c3_counterexample :
    (postprocess_supervisor_output c3Text cfb).risks.map (fun r => r.name) =
      [("Market Risk").data, ("Liquidity Risk").data] ∧
    ¬ (∃ r ∈ (postprocess_supervisor_output c3Text cfb).risks,
        r.name = ("Credit Risk").data) := by decide

/-- C5: counterexample fallback: Market 0.094, all others 0.006. -/
def c5fb : Fallback := fun n =>
  if n = ("Market Risk").data then ⟨n, [], 47 / 500⟩ else ⟨n, [], 3 / 500⟩

/-- C5: counterexample theorem: with no table and fallback scores
(0.094, 0.006, 0.006, 0.006, 0.006), the serialized per-category scores are
(0.09, 0.01, 0.01, 0.01, 0.01) whose mean rounds to 0.03, but the code's
final score is round(mean of the raw scores, 2) = round(0.0236, 2) = 0.02. -/
theorem c5_counterexample :
    (postprocess_supervisor_output noTableText c5fb).final_risk_score = 1 / 50 ∧
    round2 ((((postprocess_supervisor_output noTableText c5fb).risks.map
        (fun r => r.impact_score)).sum) /
      (((postprocess_supervisor_output noTableText c5fb).risks.length : ℚ))) = 3 / 100 ∧
    ¬ ((1 : ℚ) / 50 = 3 / 100) := by decide

/-- C6: counterexample fallback: every category 0.094. -/
def c6fb : Fallback := fun n => ⟨n, [], 47 / 500⟩

/-- C6: counterexample theorem: with no table and every fallback score 0.094,
the output scores are all 0.09 — rounded, hence not exactly equal to the
fallback values — refuting the claimed exact equality. -/
theorem c6_counterexample :
    (postprocess_supervisor_output noTableText c6fb).risks.map (fun r => r.impact_score) =
      List.replicate 5 (9 / 100) ∧
    ¬ ((9 : ℚ) / 100 = 47 / 500) := by decide

/-- C7: the claim's input: 500 `A`s, a period, a space, 100 `B`s. -/
def c7Text : List Char :=
  (List.replicate 500 'A') ++ '.' :: ' ' :: List.replicate 100 'B'

/-- C7: counterexample theorem: the first 350 characters of the input contain
no period at all (the only period sits at index 500), so the result is the
hard 350-character cut, which does not end at a period. -/
theorem c7_counterexample :
    truncate_summary c7Text 350 = List.replicate 350 'A' ∧
    (c7Text.take 350).contains '.' = false ∧
    ¬ (truncate_summary c7Text 350).getLast? = some '.' := by decide

/-- C7 (amended): on this input `truncate` takes the no-period branch and
returns exactly the first 350 characters, unchanged. -/
theorem c7_hard_cut :
    truncate_summary c7Text 350 = c7Text.take 350 ∧
    c7Text.take 350 = List.replicate 350 'A' := by decide

/-- C8: counterexample theorem: the extractor's score regex `[01](\.\d+)?`
accepts `1.75`, whose parsed value exceeds 1. -/
theorem c8_counterexample :
    (extract_summary_and_score (("Impact Score: 1.75").data)).2 = 7 / 4 ∧
    ¬ ((extract_summary_and_score (("Impact Score: 1.75").data)).2 ≤ 1) := by decide

/-- C10: counterexample theorem: for `Summary:\nhello` the greedy `\s*`
crosses the newline and the summary is `hello`, taken from the line after the
marker — the remainder of the marker's own line is empty. -/
theorem c10_counterexample :
    (extract_summary_and_score (("Summary:\nhello").data)).1 = ("hello").data ∧
    ¬ (extract_summary_and_score (("Summary:\nhello").data)).1 = [] := by decide

end FRA

namespace FRA

/-- Any successful capture of the score regex is `0`/`1` optionally followed by
a decimal point and a non-empty run of digits. -/
theorem findScoreCapture_shape (l cap : List Char) (h : findScoreCapture l = some cap) :
    (cap = ['0'] ∨ cap = ['1']) ∨
    ∃ ds, (cap = '0' :: '.' :: ds ∨ cap = '1' :: '.' :: ds) ∧ ds ≠ [] ∧
      ∀ c ∈ ds, c.isDigit = true := by
  induction l with
  | nil => simp [findScoreCapture] at h
  | cons x cs ih =>
    rw [findScoreCapture] at h
    split at h
    · split at h
      · rename_i c r2 heq
        split at h
        · rename_i hc
          simp only [Bool.or_eq_true, decide_eq_true_eq] at hc
          split at h
          · rename_i t heq2
            simp only at h
            split at h
            · rcases hc with hc | hc <;> subst hc <;>
                exact Or.inl (by injection h with h2; subst h2; simp)
            · rename_i hds
              injection h with h2
              subst h2
              rcases hc with hc | hc <;> subst hc
              · exact Or.inr ⟨_, Or.inl rfl, by simpa [List.isEmpty_iff] using hds,
                  fun c hch => List.mem_takeWhile_imp hch⟩
              · exact Or.inr ⟨_, Or.inr rfl, by simpa [List.isEmpty_iff] using hds,
                  fun c hch => List.mem_takeWhile_imp hch⟩
          · injection h with h2
            subst h2
            rcases hc with hc | hc <;> subst hc <;> exact Or.inl (by simp)
        · exact ih h
      · exact ih h
    · exact ih h

end FRA

namespace FRA

attribute [local semireducible] Rat.add Rat.mul Rat.inv Rat.sub

theorem parseUnsigned?_frac (c : Char) (ds : List Char) (hcd : c.isDigit = true)
    (hds : ∀ d ∈ ds, d.isDigit = true) :
    parseUnsigned? (c :: '.' :: ds) =
      some ((digitsVal [c] : ℚ) + (digitsVal ds : ℚ) / 10 ^ ds.length) := by
  have htw : ds.takeWhile Char.isDigit = ds := List.takeWhile_eq_self_iff.mpr hds
  have h1 : (c :: '.' :: ds).takeWhile Char.isDigit = [c] := by
    rw [List.takeWhile_cons_of_pos hcd, List.takeWhile_cons_of_neg (by decide)]
  unfold parseUnsigned?
  simp only [h1, List.length_cons, List.length_nil, Nat.zero_add, List.drop_succ_cons,
    List.drop_zero]
  simp only [if_pos rfl, htw, List.drop_length]
  simp only [List.isEmpty_cons, Bool.false_and, Bool.false_eq_true, if_neg]
  simp [expPart?]

theorem pyFloat?_zero_frac (ds : List Char)
    (hds : ∀ d ∈ ds, d.isDigit = true) :
    pyFloat? ('0' :: '.' :: ds) = some ((digitsVal ds : ℚ) / 10 ^ ds.length) := by
  rw [pyFloat?]
  rw [if_neg (by decide), if_neg (by decide)]
  rw [parseUnsigned?_frac '0' ds (by decide) hds]
  have h0 : digitsVal ['0'] = 0 := by decide
  rw [h0]
  norm_num

theorem pyFloat?_one_frac (ds : List Char)
    (hds : ∀ d ∈ ds, d.isDigit = true) :
    pyFloat? ('1' :: '.' :: ds) = some (1 + (digitsVal ds : ℚ) / 10 ^ ds.length) := by
  rw [pyFloat?]
  rw [if_neg (by decide), if_neg (by decide)]
  rw [parseUnsigned?_frac '1' ds (by decide) hds]
  have h1 : digitsVal ['1'] = 1 := by decide
  rw [h1]
  norm_num

/-- C8 (amended): for every input text, the score returned by
`extract_summary_and_score` lies in the interval [0, 2): it is 0.0 when the
marker is absent, and otherwise the value of a captured numeral `0`/`1`
optionally followed by a fractional part, which is below 2 but can exceed 1
(for example `Impact Score: 1.75` yields 1.75). -/
theorem c8_score_range (report : List Char) :
    0 ≤ (extract_summary_and_score report).2 ∧ (extract_summary_and_score report).2 < 2 := by
  cases hcap : findScoreCapture report with
  | none => simp [extract_summary_and_score, hcap]
  | some cap =>
    rcases findScoreCapture_shape report cap hcap with hs | ⟨ds, hfrac, hne, hds⟩
    · rcases hs with h | h <;> subst h <;>
        simp [extract_summary_and_score, hcap, pyFloat?, parseUnsigned?] <;> decide
    · have hlt : (digitsVal ds : ℚ) / 10 ^ ds.length < 1 := by
        rw [div_lt_one (by positivity)]
        exact_mod_cast digitsVal_lt ds hds
      have hge : (0 : ℚ) ≤ (digitsVal ds : ℚ) / 10 ^ ds.length := by positivity
      rcases hfrac with h | h <;> subst h
      · simp only [extract_summary_and_score, hcap, pyFloat?_zero_frac ds hds]
        constructor <;> [positivity; linarith]
      · simp only [extract_summary_and_score, hcap, pyFloat?_one_frac ds hds]
        constructor <;> [positivity; linarith]

end FRA

namespace FRA

attribute [local semireducible] Rat.add Rat.mul Rat.inv Rat.sub

/-- Any successful capture of the summary regex is a `takeWhile` up to the
next newline of some suffix of the input. -/
theorem findSummaryCapture_shape (l cap : List Char) (h : findSummaryCapture l = some cap) :
    ∃ r2 : List Char, cap = List.takeWhile (fun d => d != '\n') r2 := by
  induction l with
  | nil => simp [findSummaryCapture] at h
  | cons x cs ih =>
    rw [findSummaryCapture] at h
    split at h
    · injection h with h2
      exact ⟨_, h2.symm⟩
    · exact ih h

theorem mem_pstrip (l : List Char) (c : Char) (h : c ∈ pstrip l) : c ∈ l := by
  unfold pstrip at h
  rw [List.mem_reverse] at h
  have h2 := List.Sublist.mem h (List.dropWhile_sublist _)
  rw [List.mem_reverse] at h2
  exact List.Sublist.mem h2 (List.dropWhile_sublist _)

/-- C10 (amended): whenever the `Summary:` marker is found, the extracted
summary contains no newline character: the capture of `(.*)` stops at the
first newline after the greedy whitespace run, and stripping preserves this.
(The capture can however come from a line after the marker's own line, when
only whitespace follows the marker on its line.) -/
theorem c10_no_newline (report : List Char)
    (h : (findSummaryCapture report).isSome = true) :
    '\n' ∉ (extract_summary_and_score report).1 := by
  rcases Option.isSome_iff_exists.mp h with ⟨cap, hcap⟩
  obtain ⟨r2, hshape⟩ := findSummaryCapture_shape report cap hcap
  intro hmem
  simp only [extract_summary_and_score, hcap] at hmem
  have h1 := mem_pstrip _ _ hmem
  rw [hshape] at h1
  have h2 := List.mem_takeWhile_imp h1
  simp at h2

/-- C10: witness for the amended theorem at a concrete input. -/
theorem c10_no_newline_witness :
    '\n' ∉ (extract_summary_and_score (("Summary: ok line\nrest").data)).1 :=
  c10_no_newline _ (by decide)

/-- C9: neither embedded function can raise.  First conjunct: the aggregator's
only division (by the number of set scores) is reached only when the guard
`any(table_scores)` holds, which forces a non-empty score list, so the
exception-aware variant always returns `some` of the total function's value.
Second conjunct: the `except` branch around `float` in
`extract_summary_and_score` is unreachable, since every capture of the score
regex parses as a float. -/
theorem c9_no_exceptions :
    (∀ text fb, postprocessE text fb = some (postprocess_supervisor_output text fb)) ∧
    (∀ report cap, findScoreCapture report = some cap → (pyFloat? cap).isSome = true) := by
  constructor
  · intro text fb
    unfold postprocessE postprocess_supervisor_output
    by_cases h : anyTruthy (resolvedPairs text fb) = true
    · have hne := anyTruthy_ne_nil _ h
      simp only [h, if_true, List.length_map]
      rw [if_neg (by simpa using hne)]
    · simp only [Bool.not_eq_true] at h
      simp [h]
  · intro report cap hcap
    rcases findScoreCapture_shape report cap hcap with hs | ⟨ds, hfrac, hne, hds⟩
    · rcases hs with h | h <;> subst h <;> decide
    · rcases hfrac with h | h <;> subst h
      · rw [pyFloat?_zero_frac ds hds]; rfl
      · rw [pyFloat?_one_frac ds hds]; rfl

/-- C9: witness applying both conjuncts at concrete inputs. -/
theorem c9_no_exceptions_witness :
    postprocessE noTableText cfb = some (postprocess_supervisor_output noTableText cfb) ∧
    (pyFloat? (("0.73").data)).isSome = true :=
  ⟨c9_no_exceptions.1 noTableText cfb,
   c9_no_exceptions.2 (("Impact Score: 0.73").data) (("0.73").data) (by decide)⟩

/-- C2 (amended): the `risks` sequence never exceeds length 5, and has length
exactly 5 whenever no table is found (the whole-mapping fallback).  When a
table is found, only captured rows with exactly two non-empty cells among the
first five produce entries, so the length can be smaller (see the
counterexample, where it is 0). -/
theorem c2_risks_length (text : List Char) (fb : Fallback) :
    (postprocess_supervisor_output text fb).risks.length ≤ 5 ∧
    (tableGroup? text = none → (postprocess_supervisor_output text fb).risks.length = 5) := by
  have hlen : (postprocess_supervisor_output text fb).risks.length
      = (resolvedPairs text fb).length := by
    simp [postprocess_supervisor_output, applySummaries_length, buildRisks]
  constructor
  · rw [hlen]
    unfold resolvedPairs
    cases h : tableGroup? text with
    | none => simp
    | some g => simpa using processRows_length_le fb (pSplitlines (pstrip g)) 0
  · intro h
    rw [hlen]
    unfold resolvedPairs
    rw [h]
    simp

/-- C2: witness for the amended theorem, discharging the no-table hypothesis
at a concrete input. -/
theorem c2_risks_length_witness :
    (postprocess_supervisor_output noTableText cfb).risks.length = 5 :=
  (c2_risks_length noTableText cfb).2 (by decide)

end FRA

namespace FRA

attribute [local semireducible] Rat.add Rat.mul Rat.inv Rat.sub

/-- C5 (amended): `final_risk_score` is `round2` of the mean of the raw
resolved scores, computed before the per-entry rounding; whenever every
resolved score is already a 2-decimal value (so per-entry rounding is the
identity) — and the output is non-empty — it coincides with `round2` of the
mean of the `impact_score` values carried by `risks`.  Without that
hypothesis the two can differ (see the counterexample). -/
theorem c5_mean_consistency (text : List Char) (fb : Fallback)
    (hround : ∀ p ∈ resolvedPairs text fb, round2 p.2 = p.2)
    (_hne : resolvedPairs text fb ≠ []) :
    (postprocess_supervisor_output text fb).final_risk_score =
      round2 ((((postprocess_supervisor_output text fb).risks.map
          (fun r => r.impact_score)).sum) /
        (((postprocess_supervisor_output text fb).risks.length : ℚ))) := by
  have hmap2 : (resolvedPairs text fb).map (fun p => round2 p.2)
      = (resolvedPairs text fb).map (fun p => p.2) := List.map_congr_left hround
  unfold postprocess_supervisor_output
  simp only [applySummaries_map_impact, applySummaries_length, buildRisks, List.map_map,
    List.length_map, Function.comp_def]
  rw [hmap2]
  by_cases h : anyTruthy (resolvedPairs text fb) = true
  · simp [h]
  · simp only [Bool.not_eq_true] at h
    simp only [h, Bool.false_eq_true, if_false]
    have hz : ∀ p ∈ resolvedPairs text fb, (p.2 : ℚ) = 0 := by
      intro p hp
      by_contra hne2
      have hA : anyTruthy (resolvedPairs text fb) = true :=
        List.any_eq_true.mpr ⟨p, hp, by simpa using hne2⟩
      rw [h] at hA
      exact Bool.false_ne_true hA
    have hsum : ((resolvedPairs text fb).map (fun p => p.2)).sum = 0 :=
      List.sum_eq_zero (by
        intro x hx
        rcases List.mem_map.mp hx with ⟨p, hp, rfl⟩
        exact hz p hp)
    rw [hsum, zero_div]
    decide

/-- C5: witness for the amended theorem at a concrete input (no table,
2-decimal fallback scores). -/
theorem c5_mean_consistency_witness :
    (postprocess_supervisor_output noTableText cfb).final_risk_score =
      round2 ((((postprocess_supervisor_output noTableText cfb).risks.map
          (fun r => r.impact_score)).sum) /
        (((postprocess_supervisor_output noTableText cfb).risks.length : ℚ))) :=
  c5_mean_consistency noTableText cfb (by decide) (by decide)

/-- C6 (amended): with no table found, the output carries one entry per
category in enumeration order; each entry's `impact_score` is the fallback
score rounded to 2 decimals (so equal to the fallback score exactly only when
that score is already 2-decimal), and `final_risk_score` is `round2` of the
mean of the raw (pre-rounding) fallback scores. -/
theorem c6_no_table_fallback (text : List Char) (fb : Fallback)
    (h : tableGroup? text = none) :
    (postprocess_supervisor_output text fb).risks.map (fun r => r.name) = risk_names ∧
    (postprocess_supervisor_output text fb).risks.map (fun r => r.impact_score) =
      risk_names.map (fun n => round2 ((fb n).impact_score)) ∧
    (postprocess_supervisor_output text fb).final_risk_score =
      round2 ((risk_names.map (fun n => (fb n).impact_score)).sum / 5) := by
  have hpairs : resolvedPairs text fb =
      [(0, (fb (("Market Risk").data)).impact_score),
       (1, (fb (("Credit Risk").data)).impact_score),
       (2, (fb (("Liquidity Risk").data)).impact_score),
       (3, (fb (("Operational Risk").data)).impact_score),
       (4, (fb (("Regulatory/Compliance Risk").data)).impact_score)] := by
    unfold resolvedPairs
    rw [h]
    rfl
  unfold postprocess_supervisor_output
  rw [hpairs]
  refine ⟨?_, ?_, ?_⟩
  · rw [applySummaries_map_name]
    simp [buildRisks, risk_names]
  · rw [applySummaries_map_impact]
    simp [buildRisks, risk_names]
  · simp only [risk_names, List.map_cons, List.map_nil]
    by_cases hA : anyTruthy
        [(0, (fb (("Market Risk").data)).impact_score),
         (1, (fb (("Credit Risk").data)).impact_score),
         (2, (fb (("Liquidity Risk").data)).impact_score),
         (3, (fb (("Operational Risk").data)).impact_score),
         (4, (fb (("Regulatory/Compliance Risk").data)).impact_score)] = true
    · simp only [hA, if_true]
      norm_num
    · simp only [Bool.not_eq_true] at hA
      simp only [hA, Bool.false_eq_true, if_false]
      simp only [anyTruthy, List.any_cons, List.any_nil, Bool.or_eq_false_iff,
        bne_eq_false_iff_eq] at hA
      obtain ⟨h0, h1, h2, h3, h4, -⟩ := hA
      rw [h0, h1, h2, h3, h4]
      norm_num
      decide

/-- C6: witness for the amended theorem, discharging the no-table hypothesis
at a concrete input. -/
theorem c6_no_table_fallback_witness :
    (postprocess_supervisor_output noTableText cfb).risks.map (fun r => r.name) = risk_names ∧
    (postprocess_supervisor_output noTableText cfb).risks.map (fun r => r.impact_score) =
      risk_names.map (fun n => round2 ((cfb n).impact_score)) ∧
    (postprocess_supervisor_output noTableText cfb).final_risk_score =
      round2 ((risk_names.map (fun n => (cfb n).impact_score)).sum / 5) :=
  c6_no_table_fallback noTableText cfb (by decide)

end FRA

namespace FRA

attribute [local semireducible] Rat.add Rat.mul Rat.inv Rat.sub

/-- C3 (amended): when the captured table row at position `i` (i < 5) does not
have exactly 2 non-empty cells, the row is skipped entirely: no resolved pair
carries index `i`, so the output contains no entry for category `i` at all —
the category is dropped from `risks` (it does not receive the fallback score;
compare the counterexample). -/
theorem c3_skipped_row_dropped (text : List Char) (fb : Fallback) (g row : List Char) (i : ℕ)
    (hg : tableGroup? text = some g)
    (hrow : (pSplitlines (pstrip g)).get? i = some row)
    (hcols : (parseCells row).length ≠ 2) (hi : i < 5) :
    (∀ p ∈ resolvedPairs text fb, p.1 ≠ i) ∧
    (∀ r ∈ (postprocess_supervisor_output text fb).risks,
        r.name ≠ risk_names.getD i []) := by
  have hpairs : resolvedPairs text fb = processRows fb (pSplitlines (pstrip g)) 0 := by
    unfold resolvedPairs
    rw [hg]
  have hnot : ∀ p ∈ processRows fb (pSplitlines (pstrip g)) 0, p.1 ≠ i := by
    apply processRows_not_mem
    intro j row2 hj hr2
    have hj2 : j = i := by omega
    subst hj2
    rw [hrow] at hr2
    injection hr2 with h2
    subst h2
    exact hcols
  refine ⟨by rw [hpairs]; exact hnot, ?_⟩
  intro r hr
  have hmem : r.name ∈ ((postprocess_supervisor_output text fb).risks.map
      (fun r => r.name)) := List.mem_map_of_mem _ hr
  have hrisks : (postprocess_supervisor_output text fb).risks =
      applySummaries (buildRisks (resolvedPairs text fb)) (findSummaries text) := rfl
  rw [hrisks, applySummaries_map_name] at hmem
  simp only [buildRisks, List.map_map, Function.comp_def] at hmem
  rcases List.mem_map.mp hmem with ⟨p, hp, hname⟩
  have hp5 : p.1 < 5 := by
    rw [hpairs] at hp
    exact processRows_fst_lt fb _ 0 p hp
  have hpi : p.1 ≠ i := by
    rw [hpairs] at hp
    exact hnot p hp
  intro hEq
  rw [← hname] at hEq
  have hdist : ∀ (a b : Fin 5), a ≠ b →
      risk_names.getD a.1 [] ≠ risk_names.getD b.1 [] := by decide
  exact hdist ⟨p.1, hp5⟩ ⟨i, hi⟩ (by simpa [Fin.ext_iff] using hpi) hEq

/-- The table group the regex captures from `c3Text`. -/
def c3Group : List Char :=
  ("| Market Risk | 0.8 |\n| Credit | x | y |\n| Liquidity Risk | 0.4 |\n").data

/-- C3: witness for the amended theorem at the concrete counterexample input,
with the malformed row at position 1. -/
theorem c3_skipped_row_dropped_witness :
    (∀ p ∈ resolvedPairs c3Text cfb, p.1 ≠ 1) ∧
    (∀ r ∈ (postprocess_supervisor_output c3Text cfb).risks,
        r.name ≠ risk_names.getD 1 []) :=
  c3_skipped_row_dropped c3Text cfb c3Group (("| Credit | x | y |").data) 1
    (by decide) (by decide) (by decide) (by decide)

end FRA

namespace FRA

attribute [local semireducible] Rat.add Rat.mul Rat.inv Rat.sub

theorem processRows_cons_pos (fb : Fallback) (row : List Char) (rest : List (List Char))
    (idx : ℕ) (hc : (parseCells row).length = 2) (hidx : idx < 5) :
    processRows fb (row :: rest) idx =
      (idx, rowScore fb row idx) :: processRows fb rest (idx + 1) := by
  rw [processRows, if_pos ⟨hc, hidx⟩]

/-- C4: when the captured table rows 0-4 each have exactly two non-empty cells
and row 2's score cell fails to parse as a float, the output keeps all five
categories, and the entry at position 2 is named `Liquidity Risk` (the third
category, resolved by row position, not by the row's label text) and carries
the fallback mapping's Liquidity impact score, rounded to 2 decimals. -/
theorem c4_unparsable_positional_fallback (text : List Char) (fb : Fallback)
    (g r0 r1 r2 r3 r4 : List Char)
    (hg : tableGroup? text = some g)
    (hrows : (pSplitlines (pstrip g)).take 5 = [r0, r1, r2, r3, r4])
    (h0 : (parseCells r0).length = 2) (h1 : (parseCells r1).length = 2)
    (h2 : (parseCells r2).length = 2) (h3 : (parseCells r3).length = 2)
    (h4 : (parseCells r4).length = 2)
    (hbad : pyFloat? ((parseCells r2).getD 1 []) = none) :
    (postprocess_supervisor_output text fb).risks.length = 5 ∧
    ((postprocess_supervisor_output text fb).risks[2]?).map (fun r => r.name) =
      some (("Liquidity Risk").data) ∧
    ((postprocess_supervisor_output text fb).risks[2]?).map (fun r => r.impact_score) =
      some (round2 ((fb (("Liquidity Risk").data)).impact_score)) := by
  have hrows2 : pSplitlines (pstrip g) =
      r0 :: r1 :: r2 :: r3 :: r4 :: (pSplitlines (pstrip g)).drop 5 := by
    conv_lhs => rw [← List.take_append_drop 5 (pSplitlines (pstrip g))]
    rw [hrows]
    rfl
  have hs2 : rowScore fb r2 2 = (fb (("Liquidity Risk").data)).impact_score := by
    unfold rowScore
    rw [hbad]
    rfl
  have hpairs0 : resolvedPairs text fb = processRows fb (pSplitlines (pstrip g)) 0 := by
    unfold resolvedPairs
    rw [hg]
  have hpairs : resolvedPairs text fb =
      [(0, rowScore fb r0 0), (1, rowScore fb r1 1), (2, rowScore fb r2 2),
       (3, rowScore fb r3 3), (4, rowScore fb r4 4)] := by
    rw [hpairs0, hrows2]
    rw [processRows_cons_pos fb r0 _ 0 h0 (by omega)]
    rw [processRows_cons_pos fb r1 _ 1 h1 (by omega)]
    rw [processRows_cons_pos fb r2 _ 2 h2 (by omega)]
    rw [processRows_cons_pos fb r3 _ 3 h3 (by omega)]
    rw [processRows_cons_pos fb r4 _ 4 h4 (by omega)]
    rw [processRows_eq_nil_of_ge fb _ 5 (by omega)]
  have hrisks : (postprocess_supervisor_output text fb).risks =
      applySummaries (buildRisks (resolvedPairs text fb)) (findSummaries text) := rfl
  have hname : ((postprocess_supervisor_output text fb).risks.map (fun r => r.name)) =
      [("Market Risk").data, ("Credit Risk").data, ("Liquidity Risk").data,
       ("Operational Risk").data, ("Regulatory/Compliance Risk").data] := by
    rw [hrisks, applySummaries_map_name, hpairs]
    simp [buildRisks]
    exact ⟨rfl, rfl, rfl, rfl, rfl⟩
  have himpact : ((postprocess_supervisor_output text fb).risks.map
      (fun r => r.impact_score)) =
      [round2 (rowScore fb r0 0), round2 (rowScore fb r1 1),
       round2 ((fb (("Liquidity Risk").data)).impact_score),
       round2 (rowScore fb r3 3), round2 (rowScore fb r4 4)] := by
    rw [hrisks, applySummaries_map_impact, hpairs]
    simp [buildRisks, hs2]
  have hlen : (postprocess_supervisor_output text fb).risks.length = 5 := by
    have := congrArg List.length hname
    simpa using this
  refine ⟨hlen, ?_, ?_⟩
  · have := congrArg (fun l => l[2]?) hname
    simpa [List.getElem?_map] using this
  · have := congrArg (fun l => l[2]?) himpact
    simpa [List.getElem?_map] using this

/-- A synthesis text whose table rows are well-formed except that row 2's
score cell is the unparsable literal `high`. -/
def c4Text : List Char :=
  ("| Risk Name |\n| Market Risk | 0.8 |\n| Credit Risk | 0.6 |\n| Liquidity Risk | high |\n| Operational Risk | 0.9 |\n| Regulatory/Compliance Risk | 0.5 |\n").data

/-- The table group the regex captures from `c4Text`. -/
def c4Group : List Char :=
  ("| Market Risk | 0.8 |\n| Credit Risk | 0.6 |\n| Liquidity Risk | high |\n| Operational Risk | 0.9 |\n| Regulatory/Compliance Risk | 0.5 |\n").data

/-- C4: witness applying the theorem at the concrete input, discharging every
hypothesis by computation. -/
theorem c4_witness :
    (postprocess_supervisor_output c4Text cfb).risks.length = 5 ∧
    ((postprocess_supervisor_output c4Text cfb).risks[2]?).map (fun r => r.name) =
      some (("Liquidity Risk").data) ∧
    ((postprocess_supervisor_output c4Text cfb).risks[2]?).map (fun r => r.impact_score) =
      some (round2 ((cfb (("Liquidity Risk").data)).impact_score)) :=
  c4_unparsable_positional_fallback c4Text cfb c4Group
    (("| Market Risk | 0.8 |").data) (("| Credit Risk | 0.6 |").data)
    (("| Liquidity Risk | high |").data) (("| Operational Risk | 0.9 |").data)
    (("| Regulatory/Compliance Risk | 0.5 |").data)
    (by decide) (by decide) (by decide) (by decide) (by decide) (by decide) (by decide)
    (by decide)

end FRA
